import Mathlib

/-!
# Verification of the locked_in flashcard session engine

Shallow embedding of the core logic of `src/components/UploadFlashcards.jsx`
and `src/components/StudyFlashcards.jsx`:

* CSV line tokenizer (`splitCSVLine`), outer-quote stripper
  (`stripOuterQuotes`) and per-document normalizer (`parseCsv`);
* the deck builder of `handleFiles` (per-file sort, parse, flatten, final
  `(path, rowIndex)` sort);
* the session state machine (`undoCard`, `markWrong`, `markCorrect`,
  `advanceOrFinish`, `toggleShuffle`, `reviewWrongOnly`, `restartFullDeck`,
  `onScopeChange`) together with the events the rendered UI can deliver;
* the snapshot codec (`buildStateObject`, `restoreFromObject`,
  `importStateFromFile`) and the upload-page path check.

JavaScript strings are modelled through their character lists (`String.data`);
all JS string operations used by the code (`trim`, `split(/\r?\n/)`,
`split("/")`, `startsWith`, `toLowerCase`, default and `localeCompare`-based
comparisons) are defined here on `List Char` so that every definition is
executable and kernel-reducible.  `localeCompare(a, b, {sensitivity: "base"})`
is modelled as lexicographic comparison of the ASCII-lowercased character
lists.  JavaScript `Set`s are modelled as insertion-ordered duplicate-free
lists.  Stable `Array.prototype.sort` is modelled by `List.insertionSort`,
which is stable.
-/

namespace LockedIn

/-! ## Character-list string primitives -/

/-- Whitespace trim on a character list: JS `String.prototype.trim`. -/
def trimL (l : List Char) : List Char :=
  ((l.dropWhile Char.isWhitespace).reverse.dropWhile Char.isWhitespace).reverse

/-- JS `text.trim()`. -/
def trimS (s : String) : String := String.mk (trimL s.data)

/-- JS `text.split(/\r?\n/)` on a character list: a bare `'\n'` or the pair
`'\r''\n'` delimits lines; a `'\r'` not followed by `'\n'` is ordinary. -/
def splitCRLFAux : List Char → List (List Char)
  | [] => [[]]
  | '\r' :: '\n' :: r => [] :: splitCRLFAux r
  | '\n' :: r => [] :: splitCRLFAux r
  | c :: r =>
    match splitCRLFAux r with
    | [] => [[c]]
    | h :: t => (c :: h) :: t

/-- JS `text.split(/\r?\n/)`. -/
def splitCRLF (s : String) : List String := (splitCRLFAux s.data).map String.mk

/-- JS `s.split("/")` on a character list. -/
def splitSlashAux : List Char → List (List Char)
  | [] => [[]]
  | c :: r =>
    match splitSlashAux r with
    | [] => [[c]]
    | h :: t => if c = '/' then [] :: h :: t else (c :: h) :: t

/-- JS `s.split("/")`. -/
def splitSlash (s : String) : List (List Char) := splitSlashAux s.data

/-- JS `parts.join("/")` on character lists. -/
def joinSlash : List (List Char) → List Char
  | [] => []
  | [h] => h
  | h :: t => h ++ '/' :: joinSlash t

/-- JS `s.startsWith(pre)`. -/
def startsWithS (pre s : String) : Bool := pre.data.isPrefixOf s.data

/-- ASCII lower-casing of one character, as JS `toLowerCase` acts on ASCII. -/
def lowerChar (c : Char) : Char :=
  if 'A' ≤ c ∧ c ≤ 'Z' then Char.ofNat (c.toNat + 32) else c

/-- Case-insensitive collation key of a string: its lowercased characters. -/
def lowerKey (s : String) : List Char := s.data.map lowerChar

/-- Lexicographic `≤` on character lists (JS string comparison). -/
def listLE : List Char → List Char → Bool
  | [], _ => true
  | _ :: _, [] => false
  | a :: as, b :: bs => if a < b then true else if b < a then false else listLE as bs

/-- Lexicographic `<` on character lists. -/
def listLT : List Char → List Char → Bool
  | [], [] => false
  | [], _ :: _ => true
  | _ :: _, [] => false
  | a :: as, b :: bs => if a < b then true else if b < a then false else listLT as bs

/-- `a.localeCompare(b, undefined, {sensitivity: "base"}) ≤ 0`, modelled as
lexicographic comparison of the lowercased character lists. -/
def pathLE (a b : String) : Bool := listLE (lowerKey a) (lowerKey b)

/-- Worker for `dedupF`: keep the first occurrence of each element, skipping
elements already `seen`. -/
def dedupAux (seen : List String) : List String → List String
  | [] => []
  | x :: xs => if x ∈ seen then dedupAux seen xs else x :: dedupAux (seen ++ [x]) xs

/-- Insertion-ordered deduplication: JS `Array.from(new Set(xs))`. -/
def dedupF (l : List String) : List String := dedupAux [] l

/-! ## CSV line parser (`splitCSVLine` in UploadFlashcards.jsx) -/

/-- Worker for `splitCSVLine`: `inQ` is the quote mode, `cur` the pending
field.  A `'"'` inside quote mode followed by another `'"'` emits a literal
quote; otherwise a `'"'` toggles quote mode.  A `','` outside quotes ends the
field; the trailing field is flushed at end of line. -/
def splitCSVLineAux : Bool → List Char → List Char → List String
  | _, cur, [] => [String.mk cur]
  | true, cur, '"' :: '"' :: rest => splitCSVLineAux true (cur ++ ['"']) rest
  | true, cur, '"' :: rest => splitCSVLineAux false cur rest
  | false, cur, '"' :: rest => splitCSVLineAux true cur rest
  | false, cur, ',' :: rest => String.mk cur :: splitCSVLineAux false [] rest
  | inQ, cur, c :: rest => splitCSVLineAux inQ (cur ++ [c]) rest

/-- `splitCSVLine(line)` of UploadFlashcards.jsx. -/
def splitCSVLine (line : String) : List String := splitCSVLineAux false [] line.data

/-- `stripOuterQuotes` of UploadFlashcards.jsx: trim, then remove one layer of
wrapping quote characters when the trimmed text has length ≥ 2 and both starts
and ends with `'"'`. -/
def stripOuterQuotes (s : String) : String :=
  let t := trimL s.data
  if 2 ≤ t.length ∧ t.head? = some '"' ∧ t.getLast? = some '"' then
    String.mk (t.drop 1).dropLast
  else
    String.mk t

/-! ## Document normalizer (`parseCsv` in UploadFlashcards.jsx) -/

/-- One Card record: `{id, path, rowIndex, front, back}`. -/
structure Card where
  id : String
  path : String
  rowIndex : Nat
  front : String
  back : String
deriving DecidableEq, Repr

/-- The body of the `.map` callback in `parseCsv`: decide whether the line at
(zero-based) index `idx` of the split yields a card, and build it. -/
def rowCard (basePath : String) (idx : Nat) (raw : String) : Option Card :=
  if (splitCSVLine raw).length < 2 then none
  else if stripOuterQuotes ((splitCSVLine raw).getD 0 "") = "" ∨
      stripOuterQuotes ((splitCSVLine raw).getD 1 "") = "" then none
  else some ⟨basePath ++ "__" ++ toString idx, basePath, idx,
    stripOuterQuotes ((splitCSVLine raw).getD 0 ""),
    stripOuterQuotes ((splitCSVLine raw).getD 1 "")⟩

/-- `parseCsv(text, basePath)` of UploadFlashcards.jsx:
`text.trim().split(/\r?\n/).map(...).filter(Boolean)`. -/
def parseCsv (text basePath : String) : List Card :=
  (((splitCRLF (trimS text)).enum.map
      (fun p => rowCard basePath p.1 p.2))).reduceOption

/-! ## Deck builder (`handleFiles` in UploadFlashcards.jsx)

`handleFiles` sorts the selected files by path with
`localeCompare(..., {sensitivity: "base"})`, reads and parses them in that
array order (`Promise.all` preserves positional order regardless of
completion order), flattens, and finally re-sorts all cards by
`(path, rowIndex)` with the same case-insensitive path comparison. -/

/-- The file-sort comparator of `handleFiles` step 2 as a `≤` relation:
`pa.localeCompare(pb, undefined, {sensitivity: "base"}) ≤ 0`. -/
def docLE (d e : String × String) : Prop := pathLE d.1 e.1 = true

instance : DecidableRel docLE := fun d e => instDecidableEqBool (pathLE d.1 e.1) true

/-- The final card comparator of `handleFiles` step 5 as a `≤` relation:
equal paths compare by `rowIndex`, otherwise by case-insensitive path. -/
def cardLE (a b : Card) : Prop :=
  (if a.path = b.path then decide (a.rowIndex ≤ b.rowIndex) else pathLE a.path b.path) = true

instance : DecidableRel cardLE := fun a b =>
  instDecidableEqBool
    (if a.path = b.path then decide (a.rowIndex ≤ b.rowIndex) else pathLE a.path b.path) true

/-- The flattened card list of `handleFiles` steps 2–4: sort the documents by
case-insensitive path (stable), parse each in that order, flatten. -/
def deckCards (docs : List (String × String)) : List Card :=
  ((List.insertionSort docLE docs).map (fun d => parseCsv d.2 d.1)).flatten

/-- The pure core of `handleFiles`: parse the sorted documents, flatten, and
sort all cards by `(path case-insensitive, rowIndex)`.  Both sorts are
stable, like JS `Array.prototype.sort`. -/
def buildDeck (docs : List (String × String)) : List Card :=
  List.insertionSort cardLE (deckCards docs)

/-- The case-insensitive sort key of a card: lowered path, then row index. -/
def keyP (c : Card) : List Char × Nat := (lowerKey c.path, c.rowIndex)

/-- The `(case-insensitive path, rowIndex)` ordering the final sort aims at:
strictly smaller lowered path, or equal lowered paths and `≤` on row index. -/
def keyR (a b : Card) : Prop :=
  listLT (lowerKey a.path) (lowerKey b.path) = true ∨
  (lowerKey a.path = lowerKey b.path ∧ a.rowIndex ≤ b.rowIndex)

/-- The strict version of `keyR`. -/
def keyLTR (a b : Card) : Prop :=
  listLT (lowerKey a.path) (lowerKey b.path) = true ∨
  (lowerKey a.path = lowerKey b.path ∧ a.rowIndex < b.rowIndex)

/-- A card list is *coherent* when cards with case-insensitively equal paths
have strictly equal paths; decks built from documents with pairwise
case-insensitively distinct paths are coherent, and on coherent lists the
source comparator `cardLE` coincides with `keyR`. -/
def CoherentOn (l : List Card) : Prop :=
  ∀ a ∈ l, ∀ b ∈ l, lowerKey a.path = lowerKey b.path → a.path = b.path

instance : DecidableRel keyR := fun a b => by unfold keyR; infer_instance

instance : DecidableRel keyLTR := fun a b => by unfold keyLTR; infer_instance

/-- The deduplicated, default-sorted uploaded path set of `handleFiles`
step 5b. -/
def uploadedPathsOf (allCards : List Card) : List String :=
  List.insertionSort (fun a b => listLE a.data b.data = true)
    (dedupF (allCards.map (fun c => c.path)))

/-- The sorted required list of `handleFiles` step 5b. -/
def requiredOf (expectedPaths : List String) : List String :=
  List.insertionSort (fun a b => listLE a.data b.data = true) expectedPaths

/-- `missing`: required paths the upload lacks. -/
def missingOf (expectedPaths : List String) (allCards : List Card) : List String :=
  (requiredOf expectedPaths).filter (fun p => ¬ p ∈ uploadedPathsOf allCards)

/-- `extra`: uploaded paths the snapshot does not expect. -/
def extraOf (expectedPaths : List String) (allCards : List Card) : List String :=
  (uploadedPathsOf allCards).filter (fun p => ¬ p ∈ requiredOf expectedPaths)

def uploadPathCheck (expectedPaths : List String) (allCards : List Card) :
    Option (List String × List String) :=
  if expectedPaths.length = 0 then none
  else if (missingOf expectedPaths allCards).length ≠ 0 ∨
      (extraOf expectedPaths allCards).length ≠ 0 then
    some (missingOf expectedPaths allCards, extraOf expectedPaths allCards)
  else none

/-! ## Session state machine (StudyFlashcards.jsx) -/

/-- The scope key `"__ALL_CARDS__"`. -/
def SCOPE_ALL : String := "__ALL_CARDS__"

/-- The component state of StudyFlashcards.jsx that the session logic reads
and writes.  `incorrectIds` is a JS `Set`, modelled as an insertion-ordered
duplicate-free list. -/
structure SessionState where
  cardsForSession : List Card
  originalOrder : List String
  currentOrder : List String
  isShuffled : Bool
  currentIndex : Nat
  showBack : Bool
  incorrectIds : List String
  finished : Bool
  frontFirst : Bool
  showSettings : Bool
  fontSizeInput : String
  scope : String
deriving DecidableEq, Repr

/-- JS `Set.prototype.add`: append if absent. -/
def addSet (l : List String) (x : String) : List String :=
  if x ∈ l then l else l ++ [x]

/-- The session ids: `cardsForSession.map(c => c.id)`. -/
def sessionIds (s : SessionState) : List String := s.cardsForSession.map (fun c => c.id)

/-- The initial session over `cards` (the "cards prop changed" effect /
component initialisation). -/
def initState (cards : List Card) : SessionState :=
  { cardsForSession := cards
    originalOrder := cards.map (fun c => c.id)
    currentOrder := cards.map (fun c => c.id)
    isShuffled := false
    currentIndex := 0
    showBack := false
    incorrectIds := []
    finished := false
    frontFirst := true
    showSettings := false
    fontSizeInput := "30"
    scope := SCOPE_ALL }

/-- One step of the Fisher–Yates loop body: with `m+1` elements still
unshuffled, draw `i = ⌊random·(m+1)⌋ ∈ [0, m]` and swap positions `m` and
`i`.  `d` is the drawn index (clamped into range, as `Math.random` guarantees
in the source). -/
def fySwap (a : List String) (m d : Nat) : List String :=
  let i := min d m
  let x := a.getD m ""
  let y := a.getD i ""
  (a.set m y).set i x

/-- Worker for `shuffleArray`: `m` counts the remaining iterations of the
`while (m)` loop, `draws` supplies the successive `Math.random` outcomes. -/
def shuffleAux : Nat → List Nat → List String → List String
  | 0, _, a => a
  | m + 1, draws, a => shuffleAux m draws.tail (fySwap a m (draws.headD 0))

/-- `shuffleArray(arr)` of StudyFlashcards.jsx (Fisher–Yates), with the
sequence of random draws made explicit. -/
def shuffleArray (draws : List Nat) (arr : List String) : List String :=
  shuffleAux arr.length draws arr

/-- `undoCard()`: only when `currentIndex > 0`, step back, clear the flip,
unconditionally delete the id now at `currentIndex` from `incorrectIds`, and
force the session back to active. -/
def undoCard (s : SessionState) : SessionState :=
  if 0 < s.currentIndex then
    { s with currentIndex := s.currentIndex - 1
             showBack := false
             incorrectIds := s.incorrectIds.erase (s.currentOrder.getD (s.currentIndex - 1) "")
             finished := false }
  else s

/-- `advanceOrFinish()`: advance and reset the flip, or finish on the last
card. -/
def advanceOrFinish (s : SessionState) : SessionState :=
  if s.currentIndex < s.cardsForSession.length - 1 then
    { s with currentIndex := s.currentIndex + 1, showBack := false }
  else
    { s with finished := true }

/-- `markWrong()`: add the current card's id to `incorrectIds`, then advance. -/
def markWrong (s : SessionState) : SessionState :=
  advanceOrFinish
    { s with incorrectIds := addSet s.incorrectIds (s.currentOrder.getD s.currentIndex "") }

/-- `markCorrect()`: just advance. -/
def markCorrect (s : SessionState) : SessionState := advanceOrFinish s

/-- `toggleShuffle()`: shuffle the session ids (adopting the drawn
permutation) or restore `cardsForSession`'s order; either way restart at
index 0 with the default face. -/
def toggleShuffle (draws : List Nat) (s : SessionState) : SessionState :=
  if s.isShuffled = false then
    { s with currentOrder := shuffleArray draws (s.cardsForSession.map (fun c => c.id))
             isShuffled := true
             currentIndex := 0
             showBack := false }
  else
    { s with currentOrder := s.cardsForSession.map (fun c => c.id)
             isShuffled := false
             currentIndex := 0
             showBack := false }

/-- `reviewWrongOnly()` over the full deck `cards`: restrict to the session
cards marked wrong (no-op when there are none), rebuilding the session from
the deck's order. -/
def wrongIdsOf (s : SessionState) : List String :=
  (s.cardsForSession.filter (fun c => c.id ∈ s.incorrectIds)).map (fun c => c.id)

def reviewWrongOnly (cards : List Card) (s : SessionState) : SessionState :=
  if (wrongIdsOf s).length = 0 then s
  else
    { s with cardsForSession := cards.filter (fun c => c.id ∈ wrongIdsOf s)
             originalOrder := wrongIdsOf s
             currentOrder := wrongIdsOf s
             isShuffled := false
             currentIndex := 0
             showBack := false
             incorrectIds := []
             finished := false
             frontFirst := true
             showSettings := false }

/-- `restartFullDeck()`: reinitialise to the full deck with scope
`SCOPE_ALL`. -/
def restartFullDeck (cards : List Card) (s : SessionState) : SessionState :=
  { s with scope := SCOPE_ALL
           cardsForSession := cards
           originalOrder := cards.map (fun c => c.id)
           currentOrder := cards.map (fun c => c.id)
           isShuffled := false
           currentIndex := 0
           showBack := false
           incorrectIds := []
           finished := false
           frontFirst := true
           showSettings := false }

/-- `uniqueFiles`: the distinct card paths, sorted (only membership matters
to the session logic). -/
def uniqueFiles (cards : List Card) : List String :=
  List.insertionSort (fun a b => listLE a.data b.data = true) (dedupF (cards.map (fun c => c.path)))

/-- The inner loop of the `folderSet` construction: every proper non-empty
prefix `parts.slice(0, i).join("/")`, `1 ≤ i < parts.length`, of one path. -/
def foldersOf (fullPath : String) : List String :=
  (List.range' 1 ((splitSlash fullPath).length - 1)).map
    (fun i => String.mk (joinSlash ((splitSlash fullPath).take i)))

/-- `uniqueFolders`: all ancestor directories of all card paths,
deduplicated and sorted. -/
def uniqueFolders (cards : List Card) : List String :=
  List.insertionSort (fun a b => listLE a.data b.data = true)
    (dedupF ((cards.map (fun c => c.path)).flatMap foldersOf))

/-- `onScopeChange(e)` over deck `cards`: project the chosen subset and fully
reset the session to it. -/
def scopeSubset (cards : List Card) (newScope : String) : List Card :=
  if newScope = SCOPE_ALL then cards
  else if newScope ∈ uniqueFolders cards then
    cards.filter (fun c => startsWithS (newScope ++ "/") c.path)
  else if newScope ∈ uniqueFiles cards then
    cards.filter (fun c => c.path = newScope)
  else []

def onScopeChange (cards : List Card) (s : SessionState) (newScope : String) :
    SessionState :=
  { s with scope := newScope
           cardsForSession := scopeSubset cards newScope
           originalOrder := (scopeSubset cards newScope).map (fun c => c.id)
           currentOrder := (scopeSubset cards newScope).map (fun c => c.id)
           isShuffled := false
           currentIndex := 0
           showBack := false
           incorrectIds := []
           finished := false
           frontFirst := true
           showSettings := false }

/-! ## UI events and reachability

The handlers above fire only from controls the component actually renders:
the answer, undo and shuffle buttons exist only in the active study view;
the review-wrong button only in the finished view; the scope select offers
exactly `SCOPE_ALL`, the derived folders and the derived files.  The restart
button is reachable both from the finished view and from the settings panel.
The flip, settings-toggle, front-first and font-size controls only touch
display state. -/

/-- The UI events that mutate the session. -/
inductive Ev where
  | answer (wrong : Bool)
  | undo
  | shuffle (draws : List Nat)
  | scopeChange (key : String)
  | review
  | restart
  | flipCard
  | toggleSettingsPanel
  | toggleFrontFirst
  | setFontSize (v : String)
deriving Repr

/-- One UI step of StudyFlashcards.jsx over deck `cards`. -/
def step (cards : List Card) (s : SessionState) : Ev → SessionState
  | .answer wrong =>
    if s.finished = false then (if wrong then markWrong s else markCorrect s) else s
  | .undo => if s.finished = false then undoCard s else s
  | .shuffle draws => if s.finished = false then toggleShuffle draws s else s
  | .scopeChange key =>
    if s.finished = false ∧
        (key = SCOPE_ALL ∨ key ∈ uniqueFolders cards ∨ key ∈ uniqueFiles cards) then
      onScopeChange cards s key
    else s
  | .review => if s.finished = true then reviewWrongOnly cards s else s
  | .restart => restartFullDeck cards s
  | .flipCard => if s.finished = false then { s with showBack := !s.showBack } else s
  | .toggleSettingsPanel =>
    if s.finished = false then { s with showSettings := !s.showSettings } else s
  | .toggleFrontFirst =>
    if s.finished = false then { s with frontFirst := !s.frontFirst } else s
  | .setFontSize v => if s.finished = false then { s with fontSizeInput := v } else s

/-- Reachable session states over deck `cards`. -/
inductive Reach (cards : List Card) : SessionState → Prop where
  | init : Reach cards (initState cards)
  | step {s : SessionState} (e : Ev) : Reach cards s → Reach cards (step cards s e)

/-! ## Snapshot codec (export / import of `state.json`)

The JSON payload is modelled as an ordered list of key/value pairs so that
field *names* are part of the model.  Values carry the types the codec
actually writes: strings, numbers, booleans and arrays of strings. -/

/-- A JSON value as used by the snapshot payload. -/
inductive JVal where
  | jstr (s : String)
  | jnum (n : Nat)
  | jbool (b : Bool)
  | jarr (xs : List String)
deriving DecidableEq, Repr

/-- Look a key up in a JSON object. -/
def jget (o : List (String × JVal)) (k : String) : Option JVal :=
  (o.find? (fun p => p.1 = k)).map (fun p => p.2)

/-- Read a string field (other shapes behave as absent). -/
def jgetStr (o : List (String × JVal)) (k : String) : Option String :=
  match jget o k with
  | some (.jstr v) => some v
  | _ => none

/-- Read a numeric field. -/
def jgetNum (o : List (String × JVal)) (k : String) : Option Nat :=
  match jget o k with
  | some (.jnum v) => some v
  | _ => none

/-- Read a boolean field. -/
def jgetBool (o : List (String × JVal)) (k : String) : Option Bool :=
  match jget o k with
  | some (.jbool v) => some v
  | _ => none

/-- Read a string-array field. -/
def jgetArr (o : List (String × JVal)) (k : String) : Option (List String) :=
  match jget o k with
  | some (.jarr v) => some v
  | _ => none

/-- The snapshot path fingerprint: `Array.from(new Set(paths)).sort(ci)`,
shared by `buildStateObject` and both import validators. -/
def pathsFingerprint (paths : List String) : List String :=
  List.insertionSort (fun a b => pathLE a b = true) (dedupF paths)

/-- `buildStateObject()` of StudyFlashcards.jsx: the exported `state.json`
payload. -/
def buildStateObject (cards : List Card) (s : SessionState) :
    List (String × JVal) :=
  [("paths", .jarr (pathsFingerprint (cards.map (fun c => c.path)))),
   ("sessionIds", .jarr (sessionIds s)),
   ("originalOrder", .jarr s.originalOrder),
   ("currentOrder", .jarr s.currentOrder),
   ("currentIndex", .jnum s.currentIndex),
   ("incorrectIds", .jarr s.incorrectIds),
   ("scope", .jstr s.scope),
   ("isShuffled", .jbool s.isShuffled),
   ("frontFirst", .jbool s.frontFirst),
   ("fontSizeInput", .jstr s.fontSizeInput),
   ("finished", .jbool s.finished)]

/-- `restoreFromObject(parsed)` of StudyFlashcards.jsx: rehydrate the session
from a parsed snapshot against deck `cards`.  JS `??` keeps a present field,
`||` additionally replaces an empty string; `new Set(...)` deduplicates;
`showBack` is left untouched and the settings panel is closed. -/
def restoreFromObject (cards : List Card) (s : SessionState)
    (parsed : List (String × JVal)) : SessionState :=
  let sessIds := (jgetArr parsed "sessionIds").getD []
  let subset := cards.filter (fun c => c.id ∈ sessIds)
  { s with
    scope := (jgetStr parsed "scope").getD SCOPE_ALL
    cardsForSession := subset
    originalOrder :=
      ((jgetArr parsed "originalOrder").orElse
        (fun _ => jgetArr parsed "sessionIds")).getD (subset.map (fun c => c.id))
    currentOrder :=
      ((jgetArr parsed "currentOrder").orElse
        (fun _ => jgetArr parsed "sessionIds")).getD (subset.map (fun c => c.id))
    currentIndex := (jgetNum parsed "currentIndex").getD 0
    incorrectIds := dedupF ((jgetArr parsed "incorrectIds").getD [])
    isShuffled := (jgetBool parsed "isShuffled").getD false
    finished := (jgetBool parsed "finished").getD false
    frontFirst := (jgetBool parsed "frontFirst").getD true
    fontSizeInput :=
      match jgetStr parsed "fontSizeInput" with
      | some v => if v = "" then "30" else v
      | none => "30"
    showSettings := false }

/-- The alert shown by `importStateFromFile` when the path sets disagree: a
fixed text that names no paths. -/
def importMismatchMsg : String :=
  "This state.json does not match the currently uploaded files.\nUpload the same CSV set and try again."

/-- `importStateFromFile` of StudyFlashcards.jsx, after JSON parsing: compare
the deduplicated, case-insensitively sorted path lists pointwise; restore on
a match, otherwise leave the session untouched and alert.  Returns the next
session state and the message shown. -/
def importStateFromFile (cards : List Card) (s : SessionState)
    (parsed : List (String × JVal)) : SessionState × String :=
  if pathsFingerprint ((jgetArr parsed "paths").getD []) =
      pathsFingerprint (cards.map (fun c => c.path)) then
    (restoreFromObject cards s parsed, "State imported!")
  else
    (s, importMismatchMsg)

/-! ## The session invariant -/

/-- The inductive invariant of the session state machine over deck `cards`:
the session is a non-empty sub-deck shown in an order that permutes its
canonical order, the cursor is in range, and the wrong-marks form a
duplicate-free subset of the session ids. -/
structure Inv (cards : List Card) (s : SessionState) : Prop where
  ne : s.cardsForSession ≠ []
  sub : s.cardsForSession.Sublist cards
  orig : s.originalOrder = s.cardsForSession.map (fun c => c.id)
  perm : s.currentOrder.Perm s.originalOrder
  inc : ∀ x ∈ s.incorrectIds, x ∈ sessionIds s
  idx : s.currentIndex < s.cardsForSession.length
  nodup : s.incorrectIds.Nodup

/-! ## Concrete fixtures used by witnesses and counterexamples -/

/-- A two-card deck used to exhibit concrete behaviours. -/
def cardA : Card := ⟨"x.csv__0", "x.csv", 0, "tA", "dA"⟩

def cardB : Card := ⟨"y.csv__0", "y.csv", 0, "tB", "dB"⟩

def deckW : List Card := [cardA, cardB]

/-- One correct answer given from the initial session: cursor at 1. -/
def stateW1 : SessionState := step deckW (initState deckW) (Ev.answer false)

/-- One wrong answer given from the initial session: `cardA` marked wrong. -/
def stateWr : SessionState := step deckW (initState deckW) (Ev.answer true)

/-- A reachable *shuffled* state: the shuffle button pressed once with draws
that swap the two cards. -/
def stateSh : SessionState := step deckW (initState deckW) (Ev.shuffle [0, 0])

/-- A finished session with `cardA` marked wrong. -/
def stateFin : SessionState := step deckW stateWr (Ev.answer false)

/-- A one-card deck built from `x.csv`, used for snapshot-validation
fixtures. -/
def deckX : List Card := [⟨"x.csv__0", "x.csv", 0, "a", "b"⟩]

/-- A snapshot demanding `x.csv` and `y.csv` (one path extra w.r.t. `deckX`). -/
def snapXY : List (String × JVal) := [("paths", JVal.jarr ["x.csv", "y.csv"])]

/-- A snapshot demanding `z.csv` (disjoint from `deckX`). -/
def snapZ : List (String × JVal) := [("paths", JVal.jarr ["z.csv"])]

/-! ## Parser lemmas -/

theorem rowCard_eq_some {basePath : String} {i : Nat} {raw : String} {c : Card}
    (h : rowCard basePath i raw = some c) :
    c.id = basePath ++ "__" ++ toString i ∧ c.path = basePath ∧ c.rowIndex = i ∧
      c.front = stripOuterQuotes ((splitCSVLine raw).getD 0 "") ∧
      c.back = stripOuterQuotes ((splitCSVLine raw).getD 1 "") := by
  unfold rowCard at h
  split at h
  · exact absurd h (by simp)
  · split at h
    · exact absurd h (by simp)
    · cases h
      exact ⟨rfl, rfl, rfl, rfl, rfl⟩

theorem mem_parseCsv {text basePath : String} {c : Card} :
    c ∈ parseCsv text basePath ↔
      ∃ raw, (splitCRLF (trimS text)).get? c.rowIndex = some raw ∧
        rowCard basePath c.rowIndex raw = some c := by
  unfold parseCsv
  rw [List.reduceOption_mem_iff, List.mem_map]
  constructor
  · rintro ⟨p, hp, hfp⟩
    have hrow : c.rowIndex = p.1 := (rowCard_eq_some hfp).2.2.1
    refine ⟨p.2, ?_, ?_⟩
    · rw [hrow]; exact List.mem_enum_iff_get?.mp hp
    · rw [hrow]; exact hfp
  · rintro ⟨raw, hget, hrow⟩
    exact ⟨(c.rowIndex, raw), List.mem_enum_iff_get?.mpr hget, hrow⟩

theorem rowCard_isSome (basePath : String) (i : Nat) (raw : String) :
    (rowCard basePath i raw).isSome = true ↔
      2 ≤ (splitCSVLine raw).length ∧
      stripOuterQuotes ((splitCSVLine raw).getD 0 "") ≠ "" ∧
      stripOuterQuotes ((splitCSVLine raw).getD 1 "") ≠ "" := by
  unfold rowCard
  split
  · rename_i hlt
    simp only [Option.isSome_none]
    constructor
    · intro h; exact absurd h (by simp)
    · rintro ⟨h2, -, -⟩; omega
  · rename_i hlt
    split
    · rename_i hempty
      simp only [Option.isSome_none]
      constructor
      · intro h; exact absurd h (by simp)
      · rintro ⟨-, hf, hb⟩
        rcases hempty with h | h
        · exact absurd h hf
        · exact absurd h hb
    · rename_i hempty
      simp only [Option.isSome_some, true_iff]
      push_neg at hempty
      exact ⟨by omega, hempty.1, hempty.2⟩

/-! ## Set-as-list and shuffle lemmas -/

theorem mem_dedupAux {x : String} : ∀ {seen l : List String},
    x ∈ dedupAux seen l ↔ x ∈ l ∧ x ∉ seen := by
  intro seen l
  induction l generalizing seen with
  | nil => simp [dedupAux]
  | cons y ys ih =>
    unfold dedupAux
    by_cases hy : y ∈ seen
    · rw [if_pos hy, ih]
      constructor
      · rintro ⟨h1, h2⟩; exact ⟨List.mem_cons_of_mem y h1, h2⟩
      · rintro ⟨h1, h2⟩
        rcases List.mem_cons.mp h1 with h | h
        · exact absurd (h ▸ hy) h2
        · exact ⟨h, h2⟩
    · rw [if_neg hy]
      constructor
      · intro h
        rcases List.mem_cons.mp h with h | h
        · exact ⟨h ▸ List.mem_cons_self y ys, h ▸ hy⟩
        · rcases ih.mp h with ⟨h1, h2⟩
          refine ⟨List.mem_cons_of_mem y h1, fun hc => h2 ?_⟩
          exact List.mem_append_left _ hc
      · rintro ⟨h1, h2⟩
        by_cases hxy : x = y
        · exact hxy ▸ List.mem_cons_self x _
        · rcases List.mem_cons.mp h1 with h | h
          · exact absurd h hxy
          · refine List.mem_cons_of_mem y (ih.mpr ⟨h, fun hc => ?_⟩)
            rcases List.mem_append.mp hc with h' | h'
            · exact h2 h'
            · exact hxy (List.mem_singleton.mp h')

theorem mem_dedupF {x : String} {l : List String} : x ∈ dedupF l ↔ x ∈ l := by
  rw [dedupF, mem_dedupAux]
  simp

theorem nodup_dedupAux : ∀ (seen l : List String), (dedupAux seen l).Nodup := by
  intro seen l
  induction l generalizing seen with
  | nil => simp [dedupAux]
  | cons y ys ih =>
    unfold dedupAux
    by_cases hy : y ∈ seen
    · rw [if_pos hy]; exact ih seen
    · rw [if_neg hy]
      refine List.Nodup.cons (fun hc => ?_) (ih _)
      exact (mem_dedupAux.mp hc).2 (List.mem_append_right _ (List.mem_singleton.mpr rfl))

theorem nodup_dedupF (l : List String) : (dedupF l).Nodup := nodup_dedupAux [] l

theorem mem_addSet {l : List String} {x y : String} :
    y ∈ addSet l x ↔ y ∈ l ∨ y = x := by
  unfold addSet
  split
  · rename_i h
    constructor
    · exact Or.inl
    · rintro (hy | rfl)
      · exact hy
      · exact h
  · simp

theorem nodup_addSet {l : List String} {x : String} (h : l.Nodup) :
    (addSet l x).Nodup := by
  unfold addSet
  split
  · exact h
  · rename_i hx
    simpa [List.nodup_append, hx] using h

theorem getD_cons_set_perm {α : Type _} (d : α) :
    ∀ (t : List α) (j : Nat) (x : α), j < t.length →
      (t.getD j d :: t.set j x).Perm (x :: t) := by
  intro t
  induction t with
  | nil => intro j x h; simp at h
  | cons y u ih =>
    intro j x h
    cases j with
    | zero => simpa using List.Perm.swap x y u
    | succ j =>
      have hj : j < u.length := by simpa using h
      exact ((List.Perm.swap y (u.getD j d) (u.set j x)).trans
        ((ih j x hj).cons y)).trans (List.Perm.swap x y u)

theorem swap_set_perm {α : Type _} (d : α) :
    ∀ (a : List α) (p q : Nat), p < a.length → q < a.length →
      ((a.set p (a.getD q d)).set q (a.getD p d)).Perm a := by
  intro a
  induction a with
  | nil => intro p q hp _; simp at hp
  | cons z t ih =>
    intro p q hp hq
    cases p with
    | zero =>
      cases q with
      | zero => simp
      | succ j =>
        have hj : j < t.length := by simpa using hq
        simpa using getD_cons_set_perm d t j z hj
    | succ i =>
      cases q with
      | zero =>
        have hi : i < t.length := by simpa using hp
        simpa using getD_cons_set_perm d t i z hi
      | succ j =>
        have hi : i < t.length := by simpa using hp
        have hj : j < t.length := by simpa using hq
        simpa using (ih i j hi hj).cons z

theorem fySwap_perm (a : List String) (m d : Nat) (hm : m < a.length) :
    (fySwap a m d).Perm a :=
  swap_set_perm "" a m (min d m) hm (lt_of_le_of_lt (min_le_right d m) hm)

theorem fySwap_length (a : List String) (m d : Nat) :
    (fySwap a m d).length = a.length := by
  simp [fySwap]

theorem shuffleAux_perm : ∀ (m : Nat) (draws : List Nat) (a : List String),
    m ≤ a.length → (shuffleAux m draws a).Perm a := by
  intro m
  induction m with
  | zero => intro draws a _; exact List.Perm.refl a
  | succ m ih =>
    intro draws a h
    have hm : m < a.length := h
    have h1 : m ≤ (fySwap a m (draws.headD 0)).length := by
      rw [fySwap_length]; omega
    exact (ih draws.tail _ h1).trans (fySwap_perm a m _ hm)

theorem shuffleArray_perm (draws : List Nat) (l : List String) :
    (shuffleArray draws l).Perm l :=
  shuffleAux_perm l.length draws l (le_refl _)

/-! ## Path / folder lemmas -/

theorem splitSlashAux_ne_nil : ∀ l : List Char, splitSlashAux l ≠ [] := by
  intro l
  cases l with
  | nil => simp [splitSlashAux]
  | cons c r =>
    rcases hsp : splitSlashAux r with _ | ⟨h, t⟩
    · simp [splitSlashAux, hsp]
    · simp only [splitSlashAux, hsp]
      by_cases hc : c = '/' <;> simp [hc]

theorem joinSlash_cons_cons (c : Char) (h : List Char) (t : List (List Char)) :
    joinSlash ((c :: h) :: t) = c :: joinSlash (h :: t) := by
  cases t <;> rfl

theorem joinSlash_splitSlashAux : ∀ l : List Char, joinSlash (splitSlashAux l) = l := by
  intro l
  induction l with
  | nil => rfl
  | cons c r ih =>
    rcases hsp : splitSlashAux r with _ | ⟨h, t⟩
    · exact absurd hsp (splitSlashAux_ne_nil r)
    · rw [hsp] at ih
      simp only [splitSlashAux, hsp]
      by_cases hc : c = '/'
      · rw [if_pos hc, hc]
        show '/' :: joinSlash (h :: t) = '/' :: r
        rw [ih]
      · rw [if_neg hc, joinSlash_cons_cons, ih]

theorem joinSlash_cons_of_ne_nil (h : List Char) {t : List (List Char)} (ht : t ≠ []) :
    joinSlash (h :: t) = h ++ '/' :: joinSlash t := by
  cases t with
  | nil => exact absurd rfl ht
  | cons x xs => rfl

theorem joinSlash_take_drop :
    ∀ (parts : List (List Char)) (i : Nat), 1 ≤ i → i < parts.length →
      joinSlash parts = joinSlash (parts.take i) ++ '/' :: joinSlash (parts.drop i) := by
  intro parts
  induction parts with
  | nil => intro i _ h2; simp at h2
  | cons h t ih =>
    intro i h1 h2
    cases i with
    | zero => omega
    | succ j =>
      cases j with
      | zero =>
        have ht : t ≠ [] := by
          intro hnil
          rw [hnil] at h2
          simp at h2
        simpa using joinSlash_cons_of_ne_nil h ht
      | succ k =>
        have hk1 : 1 ≤ k + 1 := by omega
        have hk2 : k + 1 < t.length := by
          simp only [List.length_cons] at h2
          omega
        have ht : t ≠ [] := by
          intro hnil
          rw [hnil] at hk2
          simp at hk2
        have htake : t.take (k + 1) ≠ [] := by
          have : (t.take (k + 1)).length = k + 1 := List.length_take_of_le (by omega)
          intro hnil
          rw [hnil] at this
          simp at this
        rw [List.take_succ_cons, List.drop_succ_cons,
          joinSlash_cons_of_ne_nil h ht,
          joinSlash_cons_of_ne_nil h htake,
          ih (k + 1) hk1 hk2, List.append_assoc]
        rfl

theorem foldersOf_startsWith {key p : String} (h : key ∈ foldersOf p) :
    startsWithS (key ++ "/") p = true := by
  unfold foldersOf at h
  rcases List.mem_map.mp h with ⟨i, hi, hkey⟩
  rcases List.mem_range'_1.mp hi with ⟨hi1, hi2⟩
  have hlen : i < (splitSlash p).length := by omega
  have hsplit := joinSlash_take_drop (splitSlash p) i hi1 hlen
  have hp : joinSlash (splitSlash p) = p.data := joinSlash_splitSlashAux p.data
  unfold startsWithS
  rw [ List.isPrefixOf_iff_prefix]
  have hdata : (key ++ "/").data = joinSlash ((splitSlash p).take i) ++ ['/'] := by
    rw [String.data_append, ← hkey]
  rw [hdata, ← hp, hsplit]
  have : joinSlash ((splitSlash p).take i) ++ '/' :: joinSlash ((splitSlash p).drop i) =
      ((joinSlash ((splitSlash p).take i)) ++ ['/']) ++ joinSlash ((splitSlash p).drop i) := by
    simp
  rw [this]
  exact ⟨_, rfl⟩

theorem mem_uniqueFolders {cards : List Card} {key : String} :
    key ∈ uniqueFolders cards ↔ ∃ c ∈ cards, key ∈ foldersOf c.path := by
  unfold uniqueFolders
  rw [List.mem_insertionSort, mem_dedupF, List.mem_flatMap]
  constructor
  · rintro ⟨p, hp, hk⟩
    rcases List.mem_map.mp hp with ⟨c, hc, rfl⟩
    exact ⟨c, hc, hk⟩
  · rintro ⟨c, hc, hk⟩
    exact ⟨c.path, List.mem_map_of_mem _ hc, hk⟩

theorem mem_uniqueFiles {cards : List Card} {key : String} :
    key ∈ uniqueFiles cards ↔ ∃ c ∈ cards, c.path = key := by
  unfold uniqueFiles
  rw [List.mem_insertionSort, mem_dedupF]
  constructor
  · intro h
    rcases List.mem_map.mp h with ⟨c, hc, rfl⟩
    exact ⟨c, hc, rfl⟩
  · rintro ⟨c, hc, rfl⟩
    exact List.mem_map_of_mem _ hc

/-- Every scope the rendered dropdown offers projects a non-empty subset
(over a non-empty deck). -/
theorem scopeSubset_ne_nil {cards : List Card} {key : String}
    (hne : cards ≠ [])
    (hkey : key = SCOPE_ALL ∨ key ∈ uniqueFolders cards ∨ key ∈ uniqueFiles cards) :
    scopeSubset cards key ≠ [] := by
  unfold scopeSubset
  by_cases hall : key = SCOPE_ALL
  · simpa [hall] using hne
  · rcases hkey with h | h | h
    · exact absurd h hall
    · rcases mem_uniqueFolders.mp h with ⟨c, hc, hk⟩
      have hstart := foldersOf_startsWith hk
      simp only [if_neg hall, if_pos h]
      exact List.ne_nil_of_mem (List.mem_filter.mpr ⟨hc, hstart⟩)
    · by_cases hfold : key ∈ uniqueFolders cards
      · rcases mem_uniqueFolders.mp hfold with ⟨c, hc, hk⟩
        have hstart := foldersOf_startsWith hk
        simp only [if_neg hall, if_pos hfold]
        exact List.ne_nil_of_mem (List.mem_filter.mpr ⟨hc, hstart⟩)
      · rcases mem_uniqueFiles.mp h with ⟨c, hc, hpath⟩
        simp only [if_neg hall, if_neg hfold, if_pos h]
        exact List.ne_nil_of_mem (List.mem_filter.mpr ⟨hc, by simp [hpath]⟩)

theorem scopeSubset_sublist (cards : List Card) (key : String) :
    (scopeSubset cards key).Sublist cards := by
  unfold scopeSubset
  repeat' split
  · exact List.Sublist.refl _
  · exact List.filter_sublist _
  · exact List.filter_sublist _
  · exact List.nil_sublist _

/-! ## Invariant preservation -/

theorem inv_initState {cards : List Card} (h : cards ≠ []) :
    Inv cards (initState cards) := by
  refine ⟨h, List.Sublist.refl _, rfl, List.Perm.refl _, ?_, ?_, List.nodup_nil⟩
  · intro x hx; simp [initState] at hx
  · simpa [initState] using List.length_pos.mpr h

/-- The id currently displayed is one of the session ids. -/
theorem current_id_mem {cards : List Card} {s : SessionState} (h : Inv cards s) :
    s.currentOrder.getD s.currentIndex "" ∈ sessionIds s := by
  have hlen : s.currentIndex < s.currentOrder.length := by
    rw [h.perm.length_eq, h.orig, List.length_map]
    exact h.idx
  have hmem : s.currentOrder.getD s.currentIndex "" ∈ s.currentOrder := by
    rw [List.getD_eq_getElem _ _ hlen]
    exact List.getElem_mem hlen
  show _ ∈ s.cardsForSession.map (fun c => c.id)
  rw [← h.orig]
  exact h.perm.mem_iff.mp hmem

theorem inv_advanceOrFinish {cards : List Card} {s : SessionState} (h : Inv cards s) :
    Inv cards (advanceOrFinish s) := by
  unfold advanceOrFinish
  split
  · rename_i hlt
    exact ⟨h.ne, h.sub, h.orig, h.perm, h.inc, by simpa using by omega, h.nodup⟩
  · exact ⟨h.ne, h.sub, h.orig, h.perm, h.inc, h.idx, h.nodup⟩

theorem inv_markWrong {cards : List Card} {s : SessionState} (h : Inv cards s) :
    Inv cards (markWrong s) := by
  refine inv_advanceOrFinish ⟨h.ne, h.sub, h.orig, h.perm, ?_, h.idx, nodup_addSet h.nodup⟩
  intro x hx
  rcases mem_addSet.mp hx with hx | rfl
  · exact h.inc x hx
  · exact @current_id_mem cards s h

theorem inv_undoCard {cards : List Card} {s : SessionState} (h : Inv cards s) :
    Inv cards (undoCard s) := by
  unfold undoCard
  split
  · refine ⟨h.ne, h.sub, h.orig, h.perm, ?_, ?_, h.nodup.erase _⟩
    · intro x hx
      exact h.inc x (List.mem_of_mem_erase hx)
    · show s.currentIndex - 1 < s.cardsForSession.length
      have := h.idx
      omega
  · exact h

theorem inv_toggleShuffle {cards : List Card} {s : SessionState} (draws : List Nat)
    (h : Inv cards s) : Inv cards (toggleShuffle draws s) := by
  have hpos : 0 < s.cardsForSession.length := List.length_pos.mpr h.ne
  unfold toggleShuffle
  split
  · refine ⟨h.ne, h.sub, h.orig, ?_, h.inc, by simpa using hpos, h.nodup⟩
    show (shuffleArray draws (s.cardsForSession.map (fun c => c.id))).Perm s.originalOrder
    rw [h.orig]
    exact shuffleArray_perm _ _
  · refine ⟨h.ne, h.sub, h.orig, ?_, h.inc, by simpa using hpos, h.nodup⟩
    show (s.cardsForSession.map (fun c => c.id)).Perm s.originalOrder
    rw [h.orig]

/-- A sub-deck is recovered from the deck by filtering on its own ids,
provided the deck's ids are duplicate-free. -/
theorem filter_mem_ids_of_sublist :
    ∀ {cards T : List Card}, T.Sublist cards → (cards.map (fun c => c.id)).Nodup →
      cards.filter (fun c => c.id ∈ T.map (fun c => c.id)) = T := by
  intro cards T hsub hnd
  induction hsub with
  | slnil => rfl
  | @cons l₁ l₂ x hsub ih =>
    have hnd' : (l₂.map (fun c => c.id)).Nodup := by
      simpa using (List.nodup_cons.mp (by simpa using hnd)).2
    have hx : x.id ∉ l₁.map (fun c => c.id) := by
      intro hc
      rcases List.mem_map.mp hc with ⟨t, ht, htid⟩
      have : x.id ∈ l₂.map (fun c => c.id) :=
        htid ▸ List.mem_map_of_mem _ (hsub.mem ht)
      exact (List.nodup_cons.mp (by simpa using hnd)).1 this
    have hxb : (decide (x.id ∈ l₁.map (fun c => c.id))) = false := by simpa using hx
    rw [List.filter_cons]
    simp only [hxb, Bool.false_eq_true, if_false]
    exact ih hnd'
  | @cons₂ l₁ l₂ x hsub ih =>
    have hxid : x.id ∉ l₂.map (fun c => c.id) :=
      (List.nodup_cons.mp (by simpa using hnd)).1
    have hnd' : (l₂.map (fun c => c.id)).Nodup :=
      (List.nodup_cons.mp (by simpa using hnd)).2
    have hxin : (decide (x.id ∈ (x :: l₁).map (fun c => c.id))) = true := by simp
    rw [List.filter_cons]
    simp only [hxin, if_true]
    have hcong : l₂.filter (fun c => decide (c.id ∈ (x :: l₁).map (fun c => c.id))) =
        l₂.filter (fun c => decide (c.id ∈ l₁.map (fun c => c.id))) := by
      refine List.filter_congr ?_
      intro c hc
      have hcx : ¬ c.id = x.id := by
        intro hcx
        exact hxid (hcx ▸ List.mem_map_of_mem _ hc)
      simp [hcx]
    rw [hcong, ih hnd']

/-- For a state satisfying the invariant, the deck cards whose ids lie in
`wrongIdsOf s` are exactly the wrong-marked session cards. -/
theorem wrongCards_eq {cards : List Card} {s : SessionState}
    (hnd : (cards.map (fun c => c.id)).Nodup) (h : Inv cards s) :
    cards.filter (fun c => c.id ∈ wrongIdsOf s) =
      s.cardsForSession.filter (fun c => c.id ∈ s.incorrectIds) :=
  filter_mem_ids_of_sublist ((List.filter_sublist _).trans h.sub) hnd

theorem inv_reviewWrongOnly {cards : List Card} {s : SessionState}
    (hnd : (cards.map (fun c => c.id)).Nodup) (h : Inv cards s) :
    Inv cards (reviewWrongOnly cards s) := by
  unfold reviewWrongOnly
  split
  · exact h
  · rename_i hne
    have hwc := wrongCards_eq hnd h
    have hTne : s.cardsForSession.filter (fun c => c.id ∈ s.incorrectIds) ≠ [] := by
      intro hnil
      apply hne
      unfold wrongIdsOf
      rw [hnil]
      rfl
    constructor
    · simpa [hwc] using hTne
    · simpa [hwc] using (List.filter_sublist _).trans h.sub
    · show wrongIdsOf s = _
      rw [hwc]
      rfl
    · show (wrongIdsOf s).Perm (wrongIdsOf s)
      exact List.Perm.refl _
    · intro x hx; simp at hx
    · show 0 < (cards.filter (fun c => c.id ∈ wrongIdsOf s)).length
      rw [hwc]
      exact List.length_pos.mpr hTne
    · simp

theorem inv_restartFullDeck {cards : List Card} (s : SessionState) (hne : cards ≠ []) :
    Inv cards (restartFullDeck cards s) := by
  refine ⟨hne, List.Sublist.refl _, rfl, List.Perm.refl _, ?_, ?_, List.nodup_nil⟩
  · intro x hx; simp [restartFullDeck] at hx
  · simpa [restartFullDeck] using List.length_pos.mpr hne

theorem inv_onScopeChange {cards : List Card} (s : SessionState) {key : String}
    (hne : cards ≠ [])
    (hkey : key = SCOPE_ALL ∨ key ∈ uniqueFolders cards ∨ key ∈ uniqueFiles cards) :
    Inv cards (onScopeChange cards s key) := by
  have hsubne := scopeSubset_ne_nil hne hkey
  refine ⟨hsubne, scopeSubset_sublist cards key, rfl, List.Perm.refl _, ?_, ?_, List.nodup_nil⟩
  · intro x hx; simp [onScopeChange] at hx
  · show 0 < (scopeSubset cards key).length
    exact List.length_pos.mpr hsubne

theorem inv_step {cards : List Card} {s : SessionState} (e : Ev) (hne : cards ≠ [])
    (hnd : (cards.map (fun c => c.id)).Nodup) (h : Inv cards s) :
    Inv cards (step cards s e) := by
  cases e with
  | answer wrong =>
    simp only [step]
    split
    · split
      · exact inv_markWrong h
      · exact inv_advanceOrFinish h
    · exact h
  | undo =>
    simp only [step]
    split
    · exact inv_undoCard h
    · exact h
  | shuffle draws =>
    simp only [step]
    split
    · exact inv_toggleShuffle draws h
    · exact h
  | scopeChange key =>
    simp only [step]
    split
    · rename_i hg
      exact inv_onScopeChange s hne hg.2
    · exact h
  | review =>
    simp only [step]
    split
    · exact inv_reviewWrongOnly hnd h
    · exact h
  | restart => exact inv_restartFullDeck s hne
  | flipCard =>
    simp only [step]
    split
    · exact ⟨h.ne, h.sub, h.orig, h.perm, h.inc, h.idx, h.nodup⟩
    · exact h
  | toggleSettingsPanel =>
    simp only [step]
    split
    · exact ⟨h.ne, h.sub, h.orig, h.perm, h.inc, h.idx, h.nodup⟩
    · exact h
  | toggleFrontFirst =>
    simp only [step]
    split
    · exact ⟨h.ne, h.sub, h.orig, h.perm, h.inc, h.idx, h.nodup⟩
    · exact h
  | setFontSize v =>
    simp only [step]
    split
    · exact ⟨h.ne, h.sub, h.orig, h.perm, h.inc, h.idx, h.nodup⟩
    · exact h

/-- Every reachable state of the session machine satisfies the invariant
(over a non-empty deck with duplicate-free card ids). -/
theorem inv_reach {cards : List Card} {s : SessionState} (hne : cards ≠ [])
    (hnd : (cards.map (fun c => c.id)).Nodup) (h : Reach cards s) : Inv cards s := by
  induction h with
  | init => exact inv_initState hne
  | step e _ ih => exact inv_step e hne hnd ih

/-! ## Lexicographic comparison algebra -/

theorem listLT_cons_eq (x y : Char) (as bs : List Char) :
    listLT (x :: as) (y :: bs) =
      if x < y then true else if y < x then false else listLT as bs := rfl

theorem listLE_cons_eq (x y : Char) (as bs : List Char) :
    listLE (x :: as) (y :: bs) =
      if x < y then true else if y < x then false else listLE as bs := rfl

theorem listLT_irrefl : ∀ a : List Char, listLT a a = false
  | [] => rfl
  | x :: as => by
    rw [listLT_cons_eq, if_neg (lt_irrefl x), if_neg (lt_irrefl x)]
    exact listLT_irrefl as

theorem listLE_iff_lt_or_eq : ∀ a b : List Char,
    listLE a b = true ↔ (listLT a b = true ∨ a = b)
  | [], [] => by simp [listLE, listLT]
  | [], _ :: _ => by simp [listLE, listLT]
  | _ :: _, [] => by simp [listLE, listLT]
  | x :: as, y :: bs => by
    rw [listLE_cons_eq, listLT_cons_eq]
    rcases lt_trichotomy x y with h | h | h
    · rw [if_pos h, if_pos h]
      simp
    · subst h
      rw [if_neg (lt_irrefl x), if_neg (lt_irrefl x), if_neg (lt_irrefl x),
        if_neg (lt_irrefl x), listLE_iff_lt_or_eq as bs]
      simp
    · rw [if_neg (lt_asymm h), if_pos h, if_neg (lt_asymm h), if_pos h]
      constructor
      · intro hc
        exact absurd hc (by simp)
      · rintro (hc | hc)
        · exact absurd hc (by simp)
        · injection hc with h1 _
          subst h1
          exact absurd h (lt_irrefl x)

theorem listLT_asymm : ∀ a b : List Char,
    listLT a b = true → listLT b a = true → False
  | [], [] => by simp [listLT]
  | [], _ :: _ => by simp [listLT]
  | _ :: _, [] => by simp [listLT]
  | x :: as, y :: bs => by
    rw [listLT_cons_eq, listLT_cons_eq]
    rcases lt_trichotomy x y with h | h | h
    · intro _ hc
      rw [if_neg (lt_asymm h), if_pos h] at hc
      exact absurd hc (by simp)
    · subst h
      rw [if_neg (lt_irrefl x), if_neg (lt_irrefl x), if_neg (lt_irrefl x),
        if_neg (lt_irrefl x)]
      exact listLT_asymm as bs
    · intro hc
      rw [if_neg (lt_asymm h), if_pos h] at hc
      exact absurd hc (by simp)

theorem listLT_trans : ∀ a b c : List Char,
    listLT a b = true → listLT b c = true → listLT a c = true
  | [], b, c => by
    intro hab hbc
    cases b with
    | nil => exact absurd hab (by simp [listLT])
    | cons y bs =>
      cases c with
      | nil => exact absurd hbc (by simp [listLT])
      | cons z cs => simp [listLT]
  | _ :: _, [], _ => by
    intro hab
    exact absurd hab (by simp [listLT])
  | _ :: _, _ :: _, [] => by
    intro _ hbc
    exact absurd hbc (by simp [listLT])
  | x :: as, y :: bs, z :: cs => by
    rw [listLT_cons_eq, listLT_cons_eq, listLT_cons_eq]
    intro hab hbc
    rcases lt_trichotomy x y with h1 | h1 | h1
    · rcases lt_trichotomy y z with h2 | h2 | h2
      · rw [if_pos (lt_trans h1 h2)]
      · subst h2
        rw [if_pos h1]
      · rw [if_neg (lt_asymm h2), if_pos h2] at hbc
        exact absurd hbc (by simp)
    · subst h1
      rcases lt_trichotomy x z with h2 | h2 | h2
      · rw [if_pos h2]
      · subst h2
        rw [if_neg (lt_irrefl x), if_neg (lt_irrefl x)] at hab hbc ⊢
        exact listLT_trans as bs cs hab hbc
      · rw [if_neg (lt_asymm h2), if_pos h2] at hbc
        exact absurd hbc (by simp)
    · rw [if_neg (lt_asymm h1), if_pos h1] at hab
      exact absurd hab (by simp)

theorem listLT_trichotomy : ∀ a b : List Char,
    listLT a b = true ∨ a = b ∨ listLT b a = true
  | [], [] => Or.inr (Or.inl rfl)
  | [], _ :: _ => Or.inl (by simp [listLT])
  | _ :: _, [] => Or.inr (Or.inr (by simp [listLT]))
  | x :: as, y :: bs => by
    rcases lt_trichotomy x y with h | h | h
    · exact Or.inl (by rw [listLT_cons_eq, if_pos h])
    · subst h
      rcases listLT_trichotomy as bs with h' | h' | h'
      · refine Or.inl ?_
        rw [listLT_cons_eq, if_neg (lt_irrefl x), if_neg (lt_irrefl x)]
        exact h'
      · exact Or.inr (Or.inl (by rw [h']))
      · refine Or.inr (Or.inr ?_)
        rw [listLT_cons_eq, if_neg (lt_irrefl x), if_neg (lt_irrefl x)]
        exact h'
    · exact Or.inr (Or.inr (by rw [listLT_cons_eq, if_pos h]))

/-! ## The card key order -/

theorem keyR_total (a b : Card) : keyR a b ∨ keyR b a := by
  unfold keyR
  rcases listLT_trichotomy (lowerKey a.path) (lowerKey b.path) with h | h | h
  · exact Or.inl (Or.inl h)
  · rcases Nat.le_total a.rowIndex b.rowIndex with hr | hr
    · exact Or.inl (Or.inr ⟨h, hr⟩)
    · exact Or.inr (Or.inr ⟨h.symm, hr⟩)
  · exact Or.inr (Or.inl h)

theorem keyR_trans (a b c : Card) (hab : keyR a b) (hbc : keyR b c) : keyR a c := by
  unfold keyR at *
  rcases hab with h1 | ⟨h1, hr1⟩
  · rcases hbc with h2 | ⟨h2, _⟩
    · exact Or.inl (listLT_trans _ _ _ h1 h2)
    · exact Or.inl (h2 ▸ h1)
  · rcases hbc with h2 | ⟨h2, hr2⟩
    · exact Or.inl (h1 ▸ h2)
    · exact Or.inr ⟨h1.trans h2, hr1.trans hr2⟩

theorem keyLTR_asymm (a b : Card) (hab : keyLTR a b) (hba : keyLTR b a) : False := by
  unfold keyLTR at *
  rcases hab with h1 | ⟨h1, hr1⟩
  · rcases hba with h2 | ⟨h2, _⟩
    · exact listLT_asymm _ _ h1 h2
    · rw [h2] at h1
      rw [listLT_irrefl] at h1
      exact absurd h1 (by simp)
  · rcases hba with h2 | ⟨_, hr2⟩
    · rw [h1] at h2
      rw [listLT_irrefl] at h2
      exact absurd h2 (by simp)
    · omega

theorem keyLTR_of_keyR_ne {a b : Card} (h : keyR a b) (hne : keyP a ≠ keyP b) :
    keyLTR a b := by
  unfold keyR at h
  unfold keyLTR
  rcases h with h | ⟨h1, h2⟩
  · exact Or.inl h
  · refine Or.inr ⟨h1, ?_⟩
    rcases Nat.lt_or_ge a.rowIndex b.rowIndex with hr | hr
    · exact hr
    · exfalso
      apply hne
      unfold keyP
      rw [h1]
      have : a.rowIndex = b.rowIndex := by omega
      rw [this]

/-! ## Comparator agreement on coherent lists -/

theorem cardLE_iff_keyR {a b : Card}
    (hco : lowerKey a.path = lowerKey b.path → a.path = b.path) :
    (cardLE a b ↔ keyR a b) := by
  unfold cardLE keyR
  by_cases hp : a.path = b.path
  · have hl : lowerKey a.path = lowerKey b.path := by rw [hp]
    rw [if_pos hp, hl, listLT_irrefl]
    simp
  · have hlk : lowerKey a.path ≠ lowerKey b.path := fun h => hp (hco h)
    rw [if_neg hp]
    show pathLE a.path b.path = true ↔ _
    unfold pathLE
    rw [listLE_iff_lt_or_eq]
    simp [hlk]

theorem orderedInsert_congr {α : Type _} (R S : α → α → Prop)
    [DecidableRel R] [DecidableRel S] (a : α) :
    ∀ l : List α, (∀ b ∈ l, (R a b ↔ S a b)) →
      List.orderedInsert R a l = List.orderedInsert S a l
  | [], _ => rfl
  | b :: l, h => by
    show (if R a b then a :: b :: l else b :: List.orderedInsert R a l) =
      (if S a b then a :: b :: l else b :: List.orderedInsert S a l)
    by_cases hR : R a b
    · rw [if_pos hR, if_pos ((h b (by simp)).mp hR)]
    · rw [if_neg hR, if_neg (fun hS => hR ((h b (by simp)).mpr hS)),
        orderedInsert_congr R S a l (fun c hc => h c (by simp [hc]))]

theorem insertionSort_congr {α : Type _} (R S : α → α → Prop)
    [DecidableRel R] [DecidableRel S] :
    ∀ l : List α, (∀ x ∈ l, ∀ y ∈ l, (R x y ↔ S x y)) →
      List.insertionSort R l = List.insertionSort S l
  | [], _ => rfl
  | a :: l, h => by
    show List.orderedInsert R a (List.insertionSort R l) =
      List.orderedInsert S a (List.insertionSort S l)
    rw [insertionSort_congr R S l (fun x hx y hy => h x (by simp [hx]) y (by simp [hy]))]
    refine orderedInsert_congr R S a _ ?_
    intro b hb
    have hbl : b ∈ l := (List.mem_insertionSort S).mp hb
    exact h a (by simp) b (by simp [hbl])

/-! ## Deck builder lemmas -/

theorem parseCsv_path {text basePath : String} {c : Card}
    (h : c ∈ parseCsv text basePath) : c.path = basePath := by
  rcases mem_parseCsv.mp h with ⟨raw, -, hrow⟩
  exact (rowCard_eq_some hrow).2.1

theorem pairwise_fst_lt_enumFrom {α : Type _} :
    ∀ (n : Nat) (l : List α), (l.enumFrom n).Pairwise (fun a b => a.1 < b.1) := by
  intro n l
  induction l generalizing n with
  | nil => simp
  | cons a t ih =>
    show ((n, a) :: t.enumFrom (n + 1)).Pairwise _
    refine List.Pairwise.cons ?_ (ih (n + 1))
    rintro ⟨i, b⟩ hx
    have h := List.mem_enumFrom hx
    show n < i
    omega

theorem parseCsv_pairwise_rowIndex (text basePath : String) :
    (parseCsv text basePath).Pairwise (fun a b => a.rowIndex < b.rowIndex) := by
  unfold parseCsv
  have h1 : (((splitCRLF (trimS text)).enum.map
      (fun p => rowCard basePath p.1 p.2))).reduceOption =
      (splitCRLF (trimS text)).enum.filterMap (fun p => rowCard basePath p.1 p.2) := by
    show List.filterMap id _ = _
    rw [List.filterMap_map]
    rfl
  rw [h1, List.pairwise_filterMap]
  refine (pairwise_fst_lt_enumFrom 0 (splitCRLF (trimS text))).imp ?_
  intro p q hpq x hx y hy
  have hx' := rowCard_eq_some (Option.mem_def.mp hx)
  have hy' := rowCard_eq_some (Option.mem_def.mp hy)
  rw [hx'.2.2.1, hy'.2.2.1]
  exact hpq

theorem docs_pairwise_sorted {docs : List (String × String)}
    (hnd : (docs.map (fun d => lowerKey d.1)).Nodup) :
    (List.insertionSort docLE docs).Pairwise (fun d e => lowerKey d.1 ≠ lowerKey e.1) := by
  have h0 : docs.Pairwise (fun d e => lowerKey d.1 ≠ lowerKey e.1) :=
    List.pairwise_map.mp hnd
  exact ((List.perm_insertionSort docLE docs).pairwise_iff
    (fun hxy heq => hxy heq.symm)).mpr h0

theorem mem_deckCards {docs : List (String × String)} {c : Card} :
    c ∈ deckCards docs ↔ ∃ d ∈ docs, c ∈ parseCsv d.2 d.1 := by
  unfold deckCards
  rw [List.mem_flatten]
  constructor
  · rintro ⟨l, hl, hc⟩
    rcases List.mem_map.mp hl with ⟨d, hd, rfl⟩
    exact ⟨d, (List.mem_insertionSort docLE).mp hd, hc⟩
  · rintro ⟨d, hd, hc⟩
    exact ⟨_, List.mem_map_of_mem _ ((List.mem_insertionSort docLE).mpr hd), hc⟩

theorem coherent_deckCards {docs : List (String × String)}
    (hnd : (docs.map (fun d => lowerKey d.1)).Nodup) : CoherentOn (deckCards docs) := by
  intro a ha b hb hlk
  rcases mem_deckCards.mp ha with ⟨d, hd, hcd⟩
  rcases mem_deckCards.mp hb with ⟨e, he, hce⟩
  have hap : a.path = d.1 := parseCsv_path hcd
  have hbp : b.path = e.1 := parseCsv_path hce
  have hde : d = e :=
    List.inj_on_of_nodup_map hnd hd he (by rw [← hap, ← hbp]; exact hlk)
  rw [hap, hbp, hde]

theorem keyP_nodup_deckCards {docs : List (String × String)}
    (hnd : (docs.map (fun d => lowerKey d.1)).Nodup) :
    ((deckCards docs).map keyP).Nodup := by
  show ((deckCards docs).map keyP).Pairwise (fun a b => a ≠ b)
  rw [List.pairwise_map]
  unfold deckCards
  rw [List.pairwise_flatten]
  constructor
  · intro l hl
    rcases List.mem_map.mp hl with ⟨d, _, rfl⟩
    refine (parseCsv_pairwise_rowIndex d.2 d.1).imp ?_
    intro a b hab heq
    have hsnd : a.rowIndex = b.rowIndex := congrArg Prod.snd heq
    omega
  · rw [List.pairwise_map]
    refine (docs_pairwise_sorted hnd).imp ?_
    intro d e hde x hx y hy heq
    have h1 : x.path = d.1 := parseCsv_path hx
    have h2 : y.path = e.1 := parseCsv_path hy
    apply hde
    have hfst : lowerKey x.path = lowerKey y.path := congrArg Prod.fst heq
    rw [h1, h2] at hfst
    exact hfst

theorem deckCards_perm {docs1 docs2 : List (String × String)} (h : docs1.Perm docs2) :
    (deckCards docs1).Perm (deckCards docs2) := by
  unfold deckCards
  refine List.Perm.flatten (List.Perm.map _ ?_)
  exact (List.perm_insertionSort docLE docs1).trans
    (h.trans (List.perm_insertionSort docLE docs2).symm)

theorem deckCards_perm_concat (docs : List (String × String)) :
    (deckCards docs).Perm ((docs.map (fun d => parseCsv d.2 d.1)).flatten) :=
  List.Perm.flatten (List.Perm.map _ (List.perm_insertionSort docLE docs))

theorem buildDeck_eq_keySort {docs : List (String × String)}
    (hnd : (docs.map (fun d => lowerKey d.1)).Nodup) :
    buildDeck docs = List.insertionSort keyR (deckCards docs) := by
  unfold buildDeck
  refine insertionSort_congr cardLE keyR (deckCards docs) ?_
  intro a ha b hb
  exact cardLE_iff_keyR (fun h => coherent_deckCards hnd a ha b hb h)

theorem insertionSort_keyR_strict {l : List Card} (hnd : (l.map keyP).Nodup) :
    (List.insertionSort keyR l).Pairwise keyLTR := by
  haveI : IsTotal Card keyR := ⟨keyR_total⟩
  haveI : IsTrans Card keyR := ⟨keyR_trans⟩
  have hsorted : (List.insertionSort keyR l).Pairwise keyR :=
    List.sorted_insertionSort keyR l
  have hperm := List.perm_insertionSort keyR l
  have hnd2 : ((List.insertionSort keyR l).map keyP).Nodup :=
    ((hperm.map keyP).nodup_iff).mpr hnd
  have hne : (List.insertionSort keyR l).Pairwise (fun a b => keyP a ≠ keyP b) :=
    List.pairwise_map.mp hnd2
  exact (hsorted.and hne).imp (fun h => keyLTR_of_keyR_ne h.1 h.2)

/-! ## Claim theorems -/

/-- C1.  For every reachable SessionState (over a non-empty deck with
duplicate-free card ids), after every transition the wrong-marks
`incorrectIds` form a subset of `sessionIds`, and while the session is
active (`finished = false`) the cursor `currentIndex` lies in
`[0, length sessionIds - 1]`. -/
theorem claim_C1_session_invariants {cards : List Card} {s : SessionState}
    (hne : cards ≠ []) (hnd : (cards.map (fun c => c.id)).Nodup)
    (hreach : Reach cards s) :
    (∀ x ∈ s.incorrectIds, x ∈ sessionIds s) ∧
    (s.finished = false →
      0 ≤ s.currentIndex ∧ s.currentIndex ≤ (sessionIds s).length - 1) := by
  have h := inv_reach hne hnd hreach
  refine ⟨h.inc, fun _ => ⟨Nat.zero_le _, ?_⟩⟩
  have hidx := h.idx
  have hlen : (sessionIds s).length = s.cardsForSession.length := by
    simp [sessionIds]
  omega

theorem claim_C1_session_invariants_witness :
    (∀ x ∈ stateW1.incorrectIds, x ∈ sessionIds stateW1) ∧
    (stateW1.finished = false →
      0 ≤ stateW1.currentIndex ∧ stateW1.currentIndex ≤ (sessionIds stateW1).length - 1) :=
  claim_C1_session_invariants (by decide) (by decide)
    (Reach.step (Ev.answer false) Reach.init)

/-- C7.  `Undo` is valid only when `currentIndex > 0` (no-op at 0); when
valid it decrements `currentIndex`, forces the session back to active, and
unconditionally removes the id now at `currentIndex` — the card being
returned to — from `incorrectIds`, whether or not that card was marked
wrong. -/
theorem claim_C7_undo {cards : List Card} {s : SessionState}
    (hne : cards ≠ []) (hnd : (cards.map (fun c => c.id)).Nodup)
    (hreach : Reach cards s) :
    (s.currentIndex = 0 → undoCard s = s) ∧
    (0 < s.currentIndex →
      (undoCard s).currentIndex = s.currentIndex - 1 ∧
      (undoCard s).finished = false ∧
      (∀ x, x ∈ (undoCard s).incorrectIds ↔
        x ∈ s.incorrectIds ∧ x ≠ s.currentOrder.getD (s.currentIndex - 1) "")) := by
  have h := inv_reach hne hnd hreach
  constructor
  · intro h0
    unfold undoCard
    rw [if_neg (by omega)]
  · intro hpos
    unfold undoCard
    rw [if_pos hpos]
    refine ⟨rfl, rfl, fun x => ?_⟩
    show x ∈ s.incorrectIds.erase _ ↔ _
    rw [h.nodup.mem_erase_iff]
    exact and_comm

theorem claim_C7_undo_witness :
    0 < stateW1.currentIndex ∧
    (undoCard stateW1).currentIndex = stateW1.currentIndex - 1 ∧
    (undoCard stateW1).finished = false :=
  ⟨by decide,
    ((claim_C7_undo (by decide) (by decide)
        (Reach.step (Ev.answer false) Reach.init)).2 (by decide)).1,
    ((claim_C7_undo (by decide) (by decide)
        (Reach.step (Ev.answer false) Reach.init)).2 (by decide)).2.1⟩

/-- C10.  `ScopeChange`, `ReviewWrongOnly` (when it acts, i.e. when some
session card is marked wrong) and `RestartFullDeck` each reset the global
default-face setting `frontFirst` to `true` and close the settings panel, so
a "show definition first" preference is discarded by every session
reinitialisation. -/
theorem claim_C10_frontFirst_reset (cards : List Card) (s : SessionState)
    (key : String) :
    ((onScopeChange cards s key).frontFirst = true ∧
      (onScopeChange cards s key).showSettings = false) ∧
    ((restartFullDeck cards s).frontFirst = true ∧
      (restartFullDeck cards s).showSettings = false) ∧
    (wrongIdsOf s ≠ [] →
      (reviewWrongOnly cards s).frontFirst = true ∧
      (reviewWrongOnly cards s).showSettings = false) := by
  refine ⟨⟨rfl, rfl⟩, ⟨rfl, rfl⟩, fun hw => ?_⟩
  unfold reviewWrongOnly
  rw [if_neg (by simpa using hw)]
  exact ⟨rfl, rfl⟩

theorem claim_C10_frontFirst_reset_witness :
    wrongIdsOf stateWr ≠ [] ∧
    (reviewWrongOnly deckW stateWr).frontFirst = true ∧
    (reviewWrongOnly deckW stateWr).showSettings = false :=
  ⟨by decide, (claim_C10_frontFirst_reset deckW stateWr "k").2.2 (by decide)⟩

/-- C5 (amended).  From every reachable *unshuffled* state, applying
`ToggleShuffle` twice returns `currentOrder` to `originalOrder`, with the
second application setting `isShuffled = false` and `currentIndex = 0`.
(From an already-shuffled state the second application re-shuffles, see the
counterexample.) -/
theorem claim_C5_toggleShuffle_involution {cards : List Card} {s : SessionState}
    (hne : cards ≠ []) (hnd : (cards.map (fun c => c.id)).Nodup)
    (hreach : Reach cards s) (hsh : s.isShuffled = false)
    (draws1 draws2 : List Nat) :
    (toggleShuffle draws2 (toggleShuffle draws1 s)).currentOrder = s.originalOrder ∧
    (toggleShuffle draws2 (toggleShuffle draws1 s)).isShuffled = false ∧
    (toggleShuffle draws2 (toggleShuffle draws1 s)).currentIndex = 0 := by
  have h := inv_reach hne hnd hreach
  have h1 : toggleShuffle draws1 s =
      { s with currentOrder := shuffleArray draws1 (s.cardsForSession.map (fun c => c.id))
               isShuffled := true
               currentIndex := 0
               showBack := false } := by
    unfold toggleShuffle
    rw [if_pos hsh]
  rw [h1]
  unfold toggleShuffle
  rw [if_neg (by simp)]
  exact ⟨h.orig.symm, rfl, rfl⟩

theorem claim_C5_toggleShuffle_involution_witness :
    (toggleShuffle [] (toggleShuffle [0, 0] (initState deckW))).currentOrder =
      (initState deckW).originalOrder ∧
    (toggleShuffle [] (toggleShuffle [0, 0] (initState deckW))).isShuffled = false ∧
    (toggleShuffle [] (toggleShuffle [0, 0] (initState deckW))).currentIndex = 0 :=
  claim_C5_toggleShuffle_involution (by decide) (by decide) Reach.init (by decide) [0, 0] []

/-- C5 (counterexample).  `stateSh` is a reachable state (shuffle pressed
once); from it, applying `ToggleShuffle` twice with draws `[0, 0]` leaves the
session *shuffled* with `currentOrder ≠ originalOrder`: the claim fails for
reachable states with `isShuffled = true`. -/
theorem claim_C5_counterexample :
    Reach deckW stateSh ∧
    ¬ ((toggleShuffle [0, 0] (toggleShuffle [0, 0] stateSh)).currentOrder =
          stateSh.originalOrder ∧
        (toggleShuffle [0, 0] (toggleShuffle [0, 0] stateSh)).isShuffled = false ∧
        (toggleShuffle [0, 0] (toggleShuffle [0, 0] stateSh)).currentIndex = 0) :=
  ⟨Reach.step (Ev.shuffle [0, 0]) Reach.init, by decide⟩

/-- C6.  `ReviewWrongOnly` fires only from the finished view and is a no-op
when no session card is marked wrong; when valid it rebuilds the session as
exactly the deck cards whose ids are in `incorrectIds`, in canonical deck
order (the order of `cards`, not answer order), clears `incorrectIds`, and
resets to active with `currentIndex = 0`. -/
theorem claim_C6_reviewWrongOnly {cards : List Card} {s : SessionState}
    (hne : cards ≠ []) (hnd : (cards.map (fun c => c.id)).Nodup)
    (hreach : Reach cards s) :
    (s.finished = false → step cards s Ev.review = s) ∧
    (s.incorrectIds = [] → step cards s Ev.review = s) ∧
    (s.finished = true → s.incorrectIds ≠ [] →
      (step cards s Ev.review).cardsForSession =
        cards.filter (fun c => c.id ∈ s.incorrectIds) ∧
      (step cards s Ev.review).originalOrder =
        (cards.filter (fun c => c.id ∈ s.incorrectIds)).map (fun c => c.id) ∧
      (step cards s Ev.review).currentOrder =
        (cards.filter (fun c => c.id ∈ s.incorrectIds)).map (fun c => c.id) ∧
      (step cards s Ev.review).incorrectIds = [] ∧
      (step cards s Ev.review).finished = false ∧
      (step cards s Ev.review).currentIndex = 0) := by
  have h := inv_reach hne hnd hreach
  have hfilt : cards.filter (fun c => c.id ∈ wrongIdsOf s) =
      cards.filter (fun c => c.id ∈ s.incorrectIds) := by
    refine List.filter_congr ?_
    intro c _
    simp only [decide_eq_decide]
    constructor
    · intro hc
      rcases List.mem_map.mp hc with ⟨c', hc', hid⟩
      rcases List.mem_filter.mp hc' with ⟨_, hinc⟩
      rw [← hid]
      simpa using hinc
    · intro hc
      have hsess : c.id ∈ sessionIds s := h.inc c.id hc
      rcases List.mem_map.mp hsess with ⟨c', hc', hid⟩
      refine List.mem_map.mpr ⟨c', List.mem_filter.mpr ⟨hc', by simp [hid, hc]⟩, hid⟩
  refine ⟨?_, ?_, ?_⟩
  · intro hf
    simp only [step, hf]
    rfl
  · intro hinc
    simp only [step]
    split
    · unfold reviewWrongOnly
      rw [if_pos (by simp [wrongIdsOf, hinc])]
    · rfl
  · intro hf hinc
    have hwne : wrongIdsOf s ≠ [] := by
      intro hnil
      rcases List.exists_mem_of_ne_nil _ hinc with ⟨x, hx⟩
      have hsess : x ∈ sessionIds s := h.inc x hx
      rcases List.mem_map.mp hsess with ⟨c', hc', hid⟩
      have : c'.id ∈ wrongIdsOf s :=
        List.mem_map.mpr ⟨c', List.mem_filter.mpr ⟨hc', by simp [hid, hx]⟩, rfl⟩
      rw [hnil] at this
      simp at this
    have hwrong : (wrongIdsOf s) =
        (cards.filter (fun c => c.id ∈ s.incorrectIds)).map (fun c => c.id) := by
      rw [← hfilt, wrongCards_eq hnd h]
      rfl
    simp only [step, hf, if_pos rfl]
    unfold reviewWrongOnly
    rw [if_neg (fun hl => hwne (List.length_eq_zero.mp hl))]
    exact ⟨hfilt, hwrong, hwrong, rfl, rfl, rfl⟩

theorem claim_C6_reviewWrongOnly_witness :
    stateFin.finished = true ∧ stateFin.incorrectIds ≠ [] ∧
    (step deckW stateFin Ev.review).cardsForSession =
      deckW.filter (fun c => c.id ∈ stateFin.incorrectIds) ∧
    (step deckW stateFin Ev.review).incorrectIds = [] ∧
    (step deckW stateFin Ev.review).finished = false :=
  have happ := (claim_C6_reviewWrongOnly (by decide) (by decide)
    (Reach.step (Ev.answer false) (Reach.step (Ev.answer true) Reach.init))).2.2
    (by decide) (by decide)
  ⟨by decide, by decide, happ.1, happ.2.2.2.1, happ.2.2.2.2.1⟩

/-- C3 (counterexample).  With two documents whose paths differ only by
case (`A.csv` / `a.csv`), both the file sort and the final card sort compare
them as ties, and the stable sorts preserve the input order: the two input
orders of the same document set build different decks. -/
theorem claim_C3_counterexample :
    [("A.csv", "x,y"), ("a.csv", "p,q")].Perm [("a.csv", "p,q"), ("A.csv", "x,y")] ∧
    buildDeck [("A.csv", "x,y"), ("a.csv", "p,q")] ≠
      buildDeck [("a.csv", "p,q"), ("A.csv", "x,y")] := by
  decide

/-- C3 (amended).  For document sets whose paths are pairwise distinct even
case-insensitively, the deck builder's output is the concatenated cards
sorted by `(path case-insensitive ascending, rowIndex ascending)` (`keyR`),
and is identical regardless of the iteration or completion order in which
the documents are supplied. -/
theorem claim_C3_deck_order (docs1 docs2 : List (String × String))
    (hperm : docs1.Perm docs2)
    (hnd : (docs1.map (fun d => lowerKey d.1)).Nodup) :
    buildDeck docs1 = buildDeck docs2 ∧
    (buildDeck docs1).Perm ((docs1.map (fun d => parseCsv d.2 d.1)).flatten) ∧
    (buildDeck docs1).Pairwise keyR := by
  have hnd2 : (docs2.map (fun d => lowerKey d.1)).Nodup :=
    ((hperm.map _).nodup_iff).mp hnd
  have hb1 : buildDeck docs1 = List.insertionSort keyR (deckCards docs1) :=
    buildDeck_eq_keySort hnd
  have hb2 : buildDeck docs2 = List.insertionSort keyR (deckCards docs2) :=
    buildDeck_eq_keySort hnd2
  have hstrict1 := insertionSort_keyR_strict (keyP_nodup_deckCards hnd)
  have hstrict2 := insertionSort_keyR_strict (keyP_nodup_deckCards hnd2)
  have hpermL : (List.insertionSort keyR (deckCards docs1)).Perm
      (List.insertionSort keyR (deckCards docs2)) :=
    (List.perm_insertionSort keyR _).trans
      ((deckCards_perm hperm).trans (List.perm_insertionSort keyR _).symm)
  haveI : IsAntisymm Card keyLTR := ⟨fun a b h1 h2 => (keyLTR_asymm a b h1 h2).elim⟩
  have heq : List.insertionSort keyR (deckCards docs1) =
      List.insertionSort keyR (deckCards docs2) :=
    List.eq_of_perm_of_sorted hpermL hstrict1 hstrict2
  refine ⟨by rw [hb1, heq, ← hb2], ?_, ?_⟩
  · exact (List.perm_insertionSort cardLE _).trans (deckCards_perm_concat docs1)
  · rw [hb1]
    haveI : IsTotal Card keyR := ⟨keyR_total⟩
    haveI : IsTrans Card keyR := ⟨keyR_trans⟩
    exact List.sorted_insertionSort keyR _

theorem claim_C3_deck_order_witness :
    buildDeck [("b.csv", "p,q"), ("a.csv", "x,y")] =
        buildDeck [("a.csv", "x,y"), ("b.csv", "p,q")] ∧
      (buildDeck [("b.csv", "p,q"), ("a.csv", "x,y")]).Pairwise keyR :=
  have happ := claim_C3_deck_order [("b.csv", "p,q"), ("a.csv", "x,y")]
    [("a.csv", "x,y"), ("b.csv", "p,q")] (by decide) (by decide)
  ⟨happ.1, happ.2.2⟩

/-- C2 (counterexample).  The normalizer's ids join path and row index with
`"__"`, not `"::"`: the card emitted for `"a,b"` at path `p.csv` has id
`"p.csv__0"`, so the claimed `path + "::" + rowIndex` shape fails. -/
theorem claim_C2_counterexample :
    ¬ (∀ c ∈ parseCsv "a,b" "p.csv",
        c.id = c.path ++ "::" ++ toString c.rowIndex) := by
  decide

/-- C2 (amended).  Each Card the normalizer emits has id equal to the
concatenation `path ++ "__" ++ rowIndex` (a deterministic composite of `path`
and `rowIndex`, hence stable across re-parses of an unmodified document,
`parseCsv` being a pure function of the text and path). -/
theorem claim_C2_card_id {text basePath : String} {c : Card}
    (h : c ∈ parseCsv text basePath) :
    c.id = c.path ++ "__" ++ toString c.rowIndex ∧ c.path = basePath := by
  rcases mem_parseCsv.mp h with ⟨raw, -, hrow⟩
  rcases rowCard_eq_some hrow with ⟨hid, hpath, hidx, -, -⟩
  constructor
  · rw [hid, hpath, hidx]
  · exact hpath

theorem claim_C2_card_id_witness :
    (⟨"p.csv__0", "p.csv", 0, "a", "b"⟩ : Card).id =
        (⟨"p.csv__0", "p.csv", 0, "a", "b"⟩ : Card).path ++ "__" ++
          toString (⟨"p.csv__0", "p.csv", 0, "a", "b"⟩ : Card).rowIndex ∧
      (⟨"p.csv__0", "p.csv", 0, "a", "b"⟩ : Card).path = "p.csv" :=
  @claim_C2_card_id "a,b" "p.csv" ⟨"p.csv__0", "p.csv", 0, "a", "b"⟩ (by decide)

/-- C8 (counterexample).  `parseCsv` trims the whole text before splitting,
so for `"\na,b"` the emitted card has `rowIndex = 0` although its source line
sits at position 1 of the *untrimmed* text's line sequence; position 0 of
that sequence holds `""`, which can produce no card.  The claimed "position
in the unfiltered line sequence of the text" therefore fails. -/
theorem claim_C8_counterexample :
    ¬ (∀ c ∈ parseCsv "\na,b" "p",
        rowCard "p" c.rowIndex ((splitCRLF "\na,b").getD c.rowIndex "") = some c) := by
  decide

/-- C8 (amended).  A card is emitted for row index `i` exactly when line `i`
of the *trimmed* text's unfiltered line sequence (split at `\n` or `\r\n`)
parses to at least two fields whose first two are non-empty after
`stripOuterQuotes` (trim, then remove at most one layer of wrapping
quotes). -/
theorem claim_C8_rowIndex_emission (text basePath : String) (c : Card) :
    (c ∈ parseCsv text basePath ↔
      ∃ raw, (splitCRLF (trimS text)).get? c.rowIndex = some raw ∧
        rowCard basePath c.rowIndex raw = some c) ∧
    (∀ i : Nat, ∀ raw : String, (rowCard basePath i raw).isSome = true ↔
      (2 ≤ (splitCSVLine raw).length ∧
        stripOuterQuotes ((splitCSVLine raw).getD 0 "") ≠ "" ∧
        stripOuterQuotes ((splitCSVLine raw).getD 1 "") ≠ "")) :=
  ⟨mem_parseCsv, fun i raw => rowCard_isSome basePath i raw⟩

/-- C9 (counterexample).  The exported snapshot has no field named
`fontSize`: the font size travels under `fontSizeInput`. -/
theorem claim_C9_counterexample :
    jget (buildStateObject deckW (initState deckW)) "fontSize" = none ∧
    jget (buildStateObject deckW (initState deckW)) "fontSizeInput" =
      some (JVal.jstr "30") := by
  decide

/-- C9 (amended).  The snapshot payload carries the session's font size in
the optional field `fontSizeInput` (a string, default `"30"`), and on decode
every missing optional field is restored to its initial value:
`frontFirst = true`, `fontSizeInput = "30"`, `isShuffled = false`,
`finished = false`, `currentIndex = 0`. -/
theorem claim_C9_fontSize_defaults (cards : List Card) (s : SessionState)
    (parsed : List (String × JVal)) :
    jget (buildStateObject cards s) "fontSizeInput" = some (JVal.jstr s.fontSizeInput) ∧
    jget (buildStateObject cards s) "fontSize" = none ∧
    (jgetBool parsed "frontFirst" = none →
      (restoreFromObject cards s parsed).frontFirst = true) ∧
    (jgetStr parsed "fontSizeInput" = none →
      (restoreFromObject cards s parsed).fontSizeInput = "30") ∧
    (jgetBool parsed "isShuffled" = none →
      (restoreFromObject cards s parsed).isShuffled = false) ∧
    (jgetBool parsed "finished" = none →
      (restoreFromObject cards s parsed).finished = false) ∧
    (jgetNum parsed "currentIndex" = none →
      (restoreFromObject cards s parsed).currentIndex = 0) := by
  refine ⟨rfl, rfl, ?_, ?_, ?_, ?_, ?_⟩
  · intro h; simp [restoreFromObject, h]
  · intro h; simp [restoreFromObject, h]
  · intro h; simp [restoreFromObject, h]
  · intro h; simp [restoreFromObject, h]
  · intro h; simp [restoreFromObject, h]

theorem claim_C9_fontSize_defaults_witness :
    jget (buildStateObject deckX (initState deckX)) "fontSizeInput" =
        some (JVal.jstr (initState deckX).fontSizeInput) ∧
      (restoreFromObject deckX (initState deckX) []).frontFirst = true ∧
      (restoreFromObject deckX (initState deckX) []).fontSizeInput = "30" ∧
      (restoreFromObject deckX (initState deckX) []).currentIndex = 0 :=
  have happ := claim_C9_fontSize_defaults deckX (initState deckX) []
  ⟨happ.1, happ.2.2.1 rfl, happ.2.2.2.1 rfl, happ.2.2.2.2.2.2 rfl⟩

/-- C4 (counterexample).  The study-page import validator rejects any path
mismatch with one fixed alert text: two different mismatches (extra `y.csv`
demanded; disjoint `z.csv` demanded) produce the *same* message, which
therefore names neither the missing nor the extra paths; the session state is
left untouched in both cases. -/
theorem claim_C4_counterexample :
    (importStateFromFile deckX (initState deckX) snapXY).2 =
        (importStateFromFile deckX (initState deckX) snapZ).2 ∧
      (importStateFromFile deckX (initState deckX) snapXY).1 = initState deckX ∧
      (importStateFromFile deckX (initState deckX) snapZ).1 = initState deckX ∧
      jgetArr snapXY "paths" ≠ jgetArr snapZ "paths" := by
  decide

/-- C4 (amended).  Validation compares the deduplicated, case-insensitively
sorted path fingerprints.  The *study-page* import rejects a mismatch with a
fixed message (naming no paths) and leaves the session unchanged.  The
*upload-page* check against a previously imported snapshot accepts exactly
when the uploaded and expected path sets are equal, and on mismatch reports
precisely the missing (`expected ∖ uploaded`) and extra
(`uploaded ∖ expected`) paths, aborting the upload. -/
theorem claim_C4_validate (cards : List Card) (s : SessionState)
    (parsed : List (String × JVal)) (expected : List String) (allCards : List Card) :
    (pathsFingerprint ((jgetArr parsed "paths").getD []) ≠
        pathsFingerprint (cards.map (fun c => c.path)) →
      importStateFromFile cards s parsed = (s, importMismatchMsg)) ∧
    (expected ≠ [] →
      (uploadPathCheck expected allCards = none ↔
        (∀ p, p ∈ expected ↔ p ∈ allCards.map (fun c => c.path)))) ∧
    (∀ m e, uploadPathCheck expected allCards = some (m, e) →
      (∀ p, p ∈ m ↔ p ∈ expected ∧ ¬ p ∈ allCards.map (fun c => c.path)) ∧
      (∀ p, p ∈ e ↔ p ∈ allCards.map (fun c => c.path) ∧ ¬ p ∈ expected)) := by
  have hreq : ∀ p, p ∈ requiredOf expected ↔ p ∈ expected := by
    intro p
    rw [requiredOf, List.mem_insertionSort]
  have hup : ∀ p, p ∈ uploadedPathsOf allCards ↔ p ∈ allCards.map (fun c => c.path) := by
    intro p
    rw [uploadedPathsOf, List.mem_insertionSort, mem_dedupF]
  have hmiss : ∀ p, p ∈ missingOf expected allCards ↔
      p ∈ expected ∧ ¬ p ∈ allCards.map (fun c => c.path) := by
    intro p
    rw [missingOf, List.mem_filter, hreq]
    simp [hup]
  have hext : ∀ p, p ∈ extraOf expected allCards ↔
      p ∈ allCards.map (fun c => c.path) ∧ ¬ p ∈ expected := by
    intro p
    rw [extraOf, List.mem_filter, hup]
    simp [hreq]
  refine ⟨?_, ?_, ?_⟩
  · intro hmm
    unfold importStateFromFile
    rw [if_neg hmm]
  · intro hne
    unfold uploadPathCheck
    rw [if_neg (by simpa [List.length_eq_zero] using hne)]
    constructor
    · intro hnone
      by_cases hcond : (missingOf expected allCards).length ≠ 0 ∨
          (extraOf expected allCards).length ≠ 0
      · rw [if_pos hcond] at hnone
        exact absurd hnone (by simp)
      · push_neg at hcond
        have hm : missingOf expected allCards = [] := List.length_eq_zero.mp hcond.1
        have he : extraOf expected allCards = [] := List.length_eq_zero.mp hcond.2
        intro p
        constructor
        · intro hp
          by_contra hnp
          have : p ∈ missingOf expected allCards := (hmiss p).mpr ⟨hp, hnp⟩
          rw [hm] at this
          simp at this
        · intro hp
          by_contra hnp
          have : p ∈ extraOf expected allCards := (hext p).mpr ⟨hp, hnp⟩
          rw [he] at this
          simp at this
    · intro hiff
      have hm : missingOf expected allCards = [] := by
        rw [List.eq_nil_iff_forall_not_mem]
        intro p hp
        rcases (hmiss p).mp hp with ⟨h1, h2⟩
        exact h2 ((hiff p).mp h1)
      have he : extraOf expected allCards = [] := by
        rw [List.eq_nil_iff_forall_not_mem]
        intro p hp
        rcases (hext p).mp hp with ⟨h1, h2⟩
        exact h2 ((hiff p).mpr h1)
      rw [if_neg (by simp [hm, he])]
  · intro m e hsome
    unfold uploadPathCheck at hsome
    split at hsome
    · exact absurd hsome (by simp)
    · split at hsome
      · have heq : (missingOf expected allCards, extraOf expected allCards) = (m, e) :=
          Option.some_inj.mp hsome
        injection heq with h1 h2
        subst h1
        subst h2
        exact ⟨hmiss, hext⟩
      · exact absurd hsome (by simp)

theorem claim_C4_validate_witness :
    importStateFromFile deckX (initState deckX) snapZ =
        (initState deckX, importMismatchMsg) ∧
      ("y.csv" ∈ (["y.csv"] : List String) ↔
        "y.csv" ∈ (["x.csv", "y.csv"] : List String) ∧
          ¬ "y.csv" ∈ deckX.map (fun c => c.path)) :=
  ⟨(claim_C4_validate deckX (initState deckX) snapZ [] []).1 (by decide),
    ((claim_C4_validate deckX (initState deckX) snapZ ["x.csv", "y.csv"] deckX).2.2
      ["y.csv"] [] (by decide)).1 "y.csv"⟩

end LockedIn

